import Mathlib

/-!
Verification of the quantile-based bucket sort in `src/main.py`
(`bucket_sort_quantile_based`).

Embedding conventions:
* Elements are modelled as `ℤ` (the repository sorts numeric values with a
  total order; every claim is about order and multiset structure only).
* The random sample drawn by `random.sample(data, sample_size)` is passed in
  as an explicit `sample : List ℤ` parameter; the random source is modelled
  as explicit state in `runWithRng`.  A valid sampler output has length
  exactly `sampleSize data.length`.
* `int(n * 0.01)` (line 21) is modelled exactly as `n / 100` (ℕ floor
  division): the double `0.01` exceeds 1/100 by a relative 2.1e-17, below
  the half-ulp rounding bound, so truncating `n * 0.01` agrees with
  `⌊n/100⌋` for every list length a Python process can hold.
* `int(math.sqrt(n))` (line 18) is modelled as `Nat.sqrt n`: `math.sqrt` is
  the correctly rounded double square root, and its truncation agrees with
  the integer square root for every feasible list length (`n < 2^52`).
* `quantile = i / num_buckets; int(quantile * (sample_size - 1))`
  (lines 29–30) is modelled faithfully in IEEE-754 double arithmetic
  (`floatIdx`): the division is the correctly rounded 53-bit quotient
  (`fldivM`/`fldivE`), the int operand is converted to the nearest double,
  the product is rounded to the nearest double (round-to-nearest,
  ties-to-even, `rndNat`), and `int()` truncates.  This computation
  genuinely deviates from the exact `⌊(i/b)·(s-1)⌋` at feasible sizes
  (e.g. `s = 290`, `b = 17`, `i = 13` gives `220`, not `221`); the model
  is exact except for overflow/subnormals, which are out of range for
  every feasible input.  Theorems that depend on index ranges carry an
  explicit feasibility bound (`n < 2^53`: list lengths and sample indices
  are exactly representable as doubles; CPython cannot hold a list within
  orders of magnitude of this bound).
* Python `sorted` / `list.sort` (lines 23 and 44) are modelled by
  `List.insertionSort (· ≤ ·)`: on `ℤ` every correct sort computes the same
  list, so the choice of algorithm is immaterial.
* `sample[index]` and list indexing generally are modelled by `List.getD`
  with default `0`; the safety claim C10 proves every such index in range.
-/

namespace QuantileBucketSort

/-- Line 21 of `src/main.py`:
`sample_size = min(n, max(1000, int(n * 0.01)))`. -/
def sampleSize (n : Nat) : Nat :=
  min n (max 1000 (n / 100))

/-- Largest `m ≤ bound` with `m * m ≤ n` (`0` when none), by downward
search.  `isqrtGo n n` is the integer square root of `n`
(`isqrt_eq_sqrt`); the structural recursion keeps it kernel-reducible. -/
def isqrtGo (n : Nat) : Nat → Nat
  | 0 => 0
  | m + 1 => if (m + 1) * (m + 1) ≤ n then m + 1 else isqrtGo n m

/-- `int(math.sqrt(n))`: the integer square root `⌊√n⌋`.  `math.sqrt` is
the correctly rounded double square root, so truncating it agrees with the
exact integer square root for every feasible list length (`n < 2^52`). -/
def isqrt (n : Nat) : Nat := isqrtGo n n

/-- Line 18 of `src/main.py`:
`num_buckets = max(1, int(math.sqrt(n)))`. -/
def numBuckets (n : Nat) : Nat :=
  max 1 (isqrt n)

/-- The CPython `bisect_left` loop (used at line 38):
`while lo < hi: mid = (lo+hi)//2; if a[mid] < x: lo = mid+1 else: hi = mid`.
The extra `fuel` argument makes the recursion structural; since `hi - lo`
shrinks at every iteration, any `fuel ≥ hi - lo` computes the loop's result
(`bisectAux_fuel_irrel`). -/
def bisectAux (a : List ℤ) (x : ℤ) : Nat → Nat → Nat → Nat
  | 0, lo, _ => lo
  | fuel + 1, lo, hi =>
    if lo < hi then
      if a.getD ((lo + hi) / 2) 0 < x then
        bisectAux a x fuel ((lo + hi) / 2 + 1) hi
      else
        bisectAux a x fuel lo ((lo + hi) / 2)
    else lo

/-- `bisect_left(a, x)` with the default bounds `lo = 0`, `hi = len(a)`. -/
def bisect_left (a : List ℤ) (x : ℤ) : Nat :=
  bisectAux a x a.length 0 a.length

/-- Helper for the binary floating-point model: the smallest `e ≥ e₀`
(given enough fuel) with `bound ≤ i * 2^e`. -/
def findE (i bound : Nat) : Nat → Nat → Nat
  | 0, e => e
  | fuel + 1, e => if bound ≤ i * 2 ^ e then e else findE i bound fuel (e + 1)

/-- Nearest integer to `a / b`, ties to even: the rounding step of IEEE
round-to-nearest-even once a value has been scaled into its binade. -/
def divRound (a b : Nat) : Nat :=
  if b < 2 * (a % b) then a / b + 1
  else if 2 * (a % b) = b then (if (a / b) % 2 = 0 then a / b else a / b + 1)
  else a / b

/-- Helper: the smallest `t ≥ t₀` (given enough fuel) with `P < 2^(53+t)`. -/
def findT (P : Nat) : Nat → Nat → Nat
  | 0, t => t
  | fuel + 1, t => if P < 2 ^ (53 + t) then t else findT P fuel (t + 1)

/-- Round a natural number to 53 significant bits, ties to even: the value
of the IEEE-754 double nearest to `P` (the doubles of magnitude `≥ 1` that
arise in this program are exactly the 53-bit significands scaled by powers
of two; overflow cannot occur at these magnitudes). -/
def rndNat (P : Nat) : Nat :=
  if P < 2 ^ 53 then P
  else divRound P (2 ^ findT P P 0) * 2 ^ findT P P 0

/-- The scaling exponent for the correctly rounded double of `i / b` (used
with `1 ≤ i < b`): the smallest `E` with `2^52 * b ≤ i * 2^E`, which puts
`i * 2^E / b` in `[2^52, 2^53)`. -/
def fldivE (i b : Nat) : Nat := findE i (2 ^ 52 * b) (53 + b) 0

/-- The 53-bit mantissa of the correctly rounded double of `i / b`: CPython
true division of the ints `i` and `b` yields the double
`fldivM i b * 2^(-fldivE i b)`. -/
def fldivM (i b : Nat) : Nat := divRound (i * 2 ^ fldivE i b) b

/-- Lines 29–30 of `src/main.py` in IEEE-754 double arithmetic:
`int((i / num_buckets) * (sample_size - 1))` with `k = sample_size - 1`.
The quotient `i/b` is the correctly rounded double `fldivM i b * 2^(-E)`;
the int `k` is converted to the nearest double `rndNat k`; the product is
rounded to the nearest double (`rndNat` of the exact mantissa product, at
the same scale `2^(-E)`); `int()` truncates toward zero, which for these
nonnegative values is division by `2^E`. -/
def floatIdx (i b k : Nat) : Nat :=
  rndNat (fldivM i b * rndNat k) / 2 ^ fldivE i b

/-- Lines 26–31 of `src/main.py`: the quantile-estimated bucket boundaries
computed from the sorted sample.  `range(1, num_buckets)` is
`List.range' 1 (num_buckets - 1)`; the index is the double-precision
computation `floatIdx`. -/
def bucketBoundaries (sortedSample : List ℤ) (sample_size num_buckets : Nat) : List ℤ :=
  (List.range' 1 (num_buckets - 1)).map fun i =>
    sortedSample.getD (floatIdx i num_buckets (sample_size - 1)) 0

/-- `buckets[i].append(x)` (line 39). -/
def appendAt (buckets : List (List ℤ)) (i : Nat) (x : ℤ) : List (List ℤ) :=
  buckets.set i (buckets.getD i [] ++ [x])

/-- Lines 37–39 of `src/main.py`: the assignment loop
`for x in data: buckets[bisect_left(bucket_boundaries, x)].append(x)`. -/
def assignAll (bucket_boundaries : List ℤ) (buckets : List (List ℤ))
    (data : List ℤ) : List (List ℤ) :=
  data.foldl (fun acc x => appendAt acc (bisect_left bucket_boundaries x) x) buckets

/-- The boundary sequence produced by one invocation of the sort on `data`
when the sampler returned `sample`: the sample is sorted (line 23) and fed
to the boundary computation with `sample_size` and `num_buckets` derived
from `n = len(data)`. -/
def pipelineBoundaries (sample data : List ℤ) : List ℤ :=
  bucketBoundaries (List.insertionSort (· ≤ ·) sample)
    (sampleSize data.length) (numBuckets data.length)

/-- Lines 8–46 of `src/main.py`: `bucket_sort_quantile_based(data)`, with the
randomly drawn sample passed explicitly.  Empty input returns immediately
(line 14); otherwise boundaries are computed, every element is routed to a
bucket, each bucket is sorted and the buckets are concatenated in order
(lines 42–44). -/
def bucket_sort_quantile_based (sample data : List ℤ) : List ℤ :=
  if data.length = 0 then data
  else
    let buckets := assignAll (pipelineBoundaries sample data)
      (List.replicate (numBuckets data.length) []) data
    (buckets.map fun b => List.insertionSort (· ≤ ·) b).flatten

/-- One run of the sort with the random source threaded explicitly: `g` is
the state of the seeded generator and `randomSample` the (deterministic)
function a seeded PRNG implements for `random.sample`.  Returns the output
together with the boundary sequence of the run. -/
def runWithRng {σ : Type} (randomSample : σ → List ℤ → Nat → List ℤ)
    (g : σ) (data : List ℤ) : List ℤ × List ℤ :=
  let sample := randomSample g data (sampleSize data.length)
  (bucket_sort_quantile_based sample data, pipelineBoundaries sample data)

/-- Modelled from the spec for the comparison in claim C2: the spec's
sample-size formula `min(n, max(1000, round(0.01·n)))` with `round` the
rounding to the nearest integer, exactly as the spec words it. -/
def sampleSizeSpecRound (n : Nat) : ℤ :=
  min (n : ℤ) (max 1000 (round ((n : ℚ) / 100)))

/-! ### Helper lemmas -/

lemma isqrtGo_eq_min (n : Nat) : ∀ m, isqrtGo n m = min m (Nat.sqrt n) := by
  intro m
  induction m with
  | zero => simp [isqrtGo]
  | succ m ih =>
    rw [isqrtGo]
    by_cases h : (m + 1) * (m + 1) ≤ n
    · rw [if_pos h]
      have : m + 1 ≤ Nat.sqrt n := Nat.le_sqrt.2 h
      omega
    · rw [if_neg h, ih]
      have : ¬ (m + 1 ≤ Nat.sqrt n) := fun hc => h (Nat.le_sqrt.1 hc)
      omega

lemma isqrt_eq_sqrt (n : Nat) : isqrt n = Nat.sqrt n := by
  rw [isqrt, isqrtGo_eq_min]
  exact Nat.min_eq_right (Nat.sqrt_le_self n)

lemma getD_eq_getElem {α : Type} {a : List α} {d : α} {i : Nat} (h : i < a.length) :
    a.getD i d = a[i] := by
  rw [List.getD_eq_getElem?_getD, List.getElem?_eq_getElem h, Option.getD_some]

lemma sorted_getD_mono {a : List ℤ} (hsort : a.Sorted (· ≤ ·)) {i j : Nat}
    (hij : i ≤ j) (hj : j < a.length) : a.getD i 0 ≤ a.getD j 0 := by
  have hi : i < a.length := lt_of_le_of_lt (Nat.lt_succ_iff.1 (Nat.lt_succ_of_le hij)) hj
  rw [getD_eq_getElem hi, getD_eq_getElem hj]
  rcases Nat.eq_or_lt_of_le hij with rfl | hlt
  · exact le_refl _
  · exact List.pairwise_iff_getElem.1 hsort i j hi hj hlt

lemma bisectAux_le (a : List ℤ) (x : ℤ) :
    ∀ fuel lo hi, lo ≤ hi → bisectAux a x fuel lo hi ≤ hi := by
  intro fuel
  induction fuel with
  | zero => intro lo hi h; simpa [bisectAux] using h
  | succ fuel ih =>
    intro lo hi h
    rw [bisectAux]
    by_cases hlt : lo < hi
    · rw [if_pos hlt]
      by_cases hmid : a.getD ((lo + hi) / 2) 0 < x
      · rw [if_pos hmid]; exact ih _ _ (by omega)
      · rw [if_neg hmid]
        exact le_trans (ih _ _ (by omega)) (by omega)
    · rw [if_neg hlt]; exact h

lemma bisect_left_le_length (a : List ℤ) (x : ℤ) :
    bisect_left a x ≤ a.length :=
  bisectAux_le a x a.length 0 a.length (Nat.zero_le _)

lemma bisectAux_spec (a : List ℤ) (x : ℤ) (hsort : a.Sorted (· ≤ ·)) :
    ∀ fuel lo hi, hi - lo ≤ fuel → lo ≤ hi → hi ≤ a.length →
    (∀ i, i < lo → a.getD i 0 < x) →
    (∀ i, hi ≤ i → i < a.length → ¬ a.getD i 0 < x) →
    (∀ i, i < bisectAux a x fuel lo hi → a.getD i 0 < x) ∧
    (∀ i, bisectAux a x fuel lo hi ≤ i → i < a.length → ¬ a.getD i 0 < x) := by
  intro fuel
  induction fuel with
  | zero =>
    intro lo hi hfuel hlohi hhile hlo hhi
    have : lo = hi := by omega
    subst this
    rw [bisectAux]
    exact ⟨hlo, hhi⟩
  | succ fuel ih =>
    intro lo hi hfuel hlohi hhile hlo hhi
    rw [bisectAux]
    by_cases hlt : lo < hi
    · rw [if_pos hlt]
      have hmidlt : (lo + hi) / 2 < hi := by omega
      have hmidge : lo ≤ (lo + hi) / 2 := by omega
      have hmidlen : (lo + hi) / 2 < a.length := lt_of_lt_of_le hmidlt hhile
      by_cases hmid : a.getD ((lo + hi) / 2) 0 < x
      · rw [if_pos hmid]
        refine ih ((lo + hi) / 2 + 1) hi (by omega) (by omega) hhile ?_ hhi
        intro i hi'
        exact lt_of_le_of_lt
          (sorted_getD_mono hsort (by omega) hmidlen) hmid
      · rw [if_neg hmid]
        refine ih lo ((lo + hi) / 2) (by omega) (by omega) (le_of_lt hmidlen) hlo ?_
        intro i hile hilen hcon
        exact hmid (lt_of_le_of_lt (sorted_getD_mono hsort hile hilen) hcon)
    · rw [if_neg hlt]
      have : lo = hi := by omega
      subst this
      exact ⟨hlo, hhi⟩

lemma bisect_left_eq_countP {a : List ℤ} (x : ℤ) (hsort : a.Sorted (· ≤ ·)) :
    bisect_left a x = a.countP (fun y => decide (y < x)) := by
  obtain ⟨hA, hB⟩ := bisectAux_spec a x hsort a.length 0 a.length
    (by omega) (Nat.zero_le _) (le_refl _)
    (by intro i h; omega) (by intro i h h'; omega)
  set r := bisectAux a x a.length 0 a.length with hr
  have hrlen : r ≤ a.length := bisectAux_le a x a.length 0 a.length (Nat.zero_le _)
  have hsplit : a = a.take r ++ a.drop r := (List.take_append_drop r a).symm
  rw [bisect_left, ← hr]
  conv_rhs => rw [hsplit]
  rw [List.countP_append]
  have h1 : (a.take r).countP (fun y => decide (y < x)) = (a.take r).length := by
    rw [List.countP_eq_length]
    intro y hy
    obtain ⟨i, hilen, hig⟩ := List.mem_iff_getElem.1 hy
    rw [List.length_take] at hilen
    have hir : i < r := by omega
    have hia : i < a.length := by omega
    have : a.getD i 0 < x := hA i hir
    rw [getD_eq_getElem hia] at this
    rw [← hig, List.getElem_take]
    exact decide_eq_true this
  have h2 : (a.drop r).countP (fun y => decide (y < x)) = 0 := by
    rw [List.countP_eq_zero]
    intro y hy
    obtain ⟨i, hilen, hig⟩ := List.mem_iff_getElem.1 hy
    have hia : r + i < a.length := by
      have := List.length_drop r a ▸ hilen; omega
    have hnot : ¬ a.getD (r + i) 0 < x := hB (r + i) (Nat.le_add_right _ _) hia
    rw [getD_eq_getElem hia] at hnot
    rw [← hig, List.getElem_drop]
    simpa using hnot
  rw [h1, h2, List.length_take]
  omega

lemma sampleSize_pos {n : Nat} (h : 1 ≤ n) : 1 ≤ sampleSize n := by
  unfold sampleSize; omega

lemma sampleSize_le_self (n : Nat) : sampleSize n ≤ n := by
  unfold sampleSize; omega

lemma numBuckets_pos (n : Nat) : 1 ≤ numBuckets n := by
  unfold numBuckets; omega

/-! ### The floating-point quantile index -/

lemma findE_spec (i bound : Nat) :
    ∀ fuel e₀, (∀ e < e₀, i * 2 ^ e < bound) → bound ≤ i * 2 ^ (e₀ + fuel) →
      bound ≤ i * 2 ^ findE i bound fuel e₀ ∧
      ∀ e < findE i bound fuel e₀, i * 2 ^ e < bound := by
  intro fuel
  induction fuel with
  | zero =>
    intro e₀ hlow hfuel
    exact ⟨hfuel, hlow⟩
  | succ fuel ih =>
    intro e₀ hlow hfuel
    rw [findE]
    by_cases h : bound ≤ i * 2 ^ e₀
    · rw [if_pos h]
      exact ⟨h, hlow⟩
    · rw [if_neg h]
      refine ih (e₀ + 1) ?_ ?_
      · intro e he
        rcases Nat.lt_or_ge e e₀ with h1 | h1
        · exact hlow e h1
        · have : e = e₀ := by omega
          subst this
          omega
      · have : e₀ + 1 + fuel = e₀ + (fuel + 1) := by omega
        rw [this]
        exact hfuel

lemma findT_spec (P : Nat) :
    ∀ fuel t₀, (∀ t < t₀, 2 ^ (53 + t) ≤ P) → P < 2 ^ (53 + (t₀ + fuel)) →
      P < 2 ^ (53 + findT P fuel t₀) ∧
      ∀ t < findT P fuel t₀, 2 ^ (53 + t) ≤ P := by
  intro fuel
  induction fuel with
  | zero =>
    intro t₀ hlow hfuel
    exact ⟨by simpa using hfuel, hlow⟩
  | succ fuel ih =>
    intro t₀ hlow hfuel
    rw [findT]
    by_cases h : P < 2 ^ (53 + t₀)
    · rw [if_pos h]
      exact ⟨h, hlow⟩
    · rw [if_neg h]
      refine ih (t₀ + 1) ?_ ?_
      · intro t ht
        rcases Nat.lt_or_ge t t₀ with h1 | h1
        · exact hlow t h1
        · have : t = t₀ := by omega
          subst this
          omega
      · have : 53 + (t₀ + 1 + fuel) = 53 + (t₀ + (fuel + 1)) := by omega
        rw [this]
        exact hfuel

lemma le_divRound (a b : Nat) : a / b ≤ divRound a b := by
  unfold divRound
  split_ifs <;> omega

lemma divRound_le_succ (a b : Nat) : divRound a b ≤ a / b + 1 := by
  unfold divRound
  split_ifs <;> omega

lemma divRound_lb (a b : Nat) (hb : 1 ≤ b) : 2 * a ≤ 2 * b * divRound a b + b := by
  have hdm := Nat.div_add_mod a b
  have hr : a % b < b := Nat.mod_lt _ hb
  unfold divRound
  split_ifs with h1 h2 h3 <;>
    · rw [show ∀ x : ℕ, 2 * b * x = 2 * (b * x) from fun x => by ring]
      try simp only [Nat.mul_succ]
      omega

lemma divRound_ub (a b : Nat) (hb : 1 ≤ b) : 2 * b * divRound a b ≤ 2 * a + b := by
  have hdm := Nat.div_add_mod a b
  have hr : a % b < b := Nat.mod_lt _ hb
  unfold divRound
  split_ifs with h1 h2 h3 <;>
    · rw [show ∀ x : ℕ, 2 * b * x = 2 * (b * x) from fun x => by ring]
      try simp only [Nat.mul_succ]
      omega

lemma divRound_mono (b : Nat) {a a' : Nat} (h : a ≤ a') :
    divRound a b ≤ divRound a' b := by
  rcases Nat.lt_or_ge (a / b) (a' / b) with hq | hq
  · calc divRound a b ≤ a / b + 1 := divRound_le_succ a b
      _ ≤ a' / b := hq
      _ ≤ divRound a' b := le_divRound a' b
  · have hqe : a / b = a' / b := Nat.le_antisymm (Nat.div_le_div_right h) hq
    have h1 := Nat.div_add_mod a b
    have h2 := Nat.div_add_mod a' b
    rw [← hqe] at h2
    have hre : a % b ≤ a' % b := by omega
    unfold divRound
    rw [← hqe]
    split_ifs <;> omega

lemma divRound_mul_right (a b c : Nat) (hc : 0 < c) :
    divRound (a * c) (b * c) = divRound a b := by
  have hdiv : a * c / (b * c) = a / b := by
    rw [Nat.mul_comm a c, Nat.mul_comm b c, Nat.mul_div_mul_left _ _ hc]
  have hmod : a * c % (b * c) = a % b * c := by
    rw [Nat.mul_comm a c, Nat.mul_comm b c, Nat.mul_mod_mul_left, Nat.mul_comm]
  unfold divRound
  rw [hdiv, hmod]
  have hlt : b * c < 2 * (a % b * c) ↔ b < 2 * (a % b) := by
    rw [show 2 * (a % b * c) = 2 * (a % b) * c by ring]
    exact Nat.mul_lt_mul_right hc
  have heq : 2 * (a % b * c) = b * c ↔ 2 * (a % b) = b := by
    rw [show 2 * (a % b * c) = 2 * (a % b) * c by ring]
    constructor
    · intro hx
      exact Nat.eq_of_mul_eq_mul_right hc hx
    · intro hx
      rw [hx]
  split_ifs with u1 u2 u3 u4 u5 u6 <;> first
    | rfl
    | exact absurd (hlt.1 u1) u2
    | exact absurd (hlt.2 u2) u1
    | exact absurd (heq.1 u2) u4
    | exact absurd (heq.2 u4) u2
    | omega

lemma divRound_one (a : Nat) : divRound a 1 = a := by
  unfold divRound
  simp [Nat.mod_one, Nat.div_one]

lemma rndNat_small {P : Nat} (h : P < 2 ^ 53) : rndNat P = P := by
  unfold rndNat
  rw [if_pos h]

lemma tOf_spec {P : Nat} (hP : 2 ^ 53 ≤ P) :
    P < 2 ^ (53 + findT P P 0) ∧ 2 ^ (52 + findT P P 0) ≤ P ∧ 1 ≤ findT P P 0 := by
  have hex : P < 2 ^ (53 + (0 + P)) :=
    lt_of_lt_of_le (Nat.lt_two_pow P) (Nat.pow_le_pow_right (by omega) (by omega))
  obtain ⟨h1, h2⟩ := findT_spec P P 0 (by omega) hex
  have ht1 : 1 ≤ findT P P 0 := by
    by_contra hc
    have h0 : findT P P 0 = 0 := by omega
    rw [h0, Nat.add_zero] at h1
    omega
  refine ⟨h1, ?_, ht1⟩
  have h3 := h2 (findT P P 0 - 1) (by omega)
  have heq : 53 + (findT P P 0 - 1) = 52 + findT P P 0 := by omega
  rw [heq] at h3
  exact h3

lemma rndNat_eq_of_binade {P t : Nat} (h1 : 2 ^ (52 + t) ≤ P) (h2 : P < 2 ^ (53 + t)) :
    rndNat P = divRound P (2 ^ t) * 2 ^ t := by
  rcases Nat.lt_or_ge P (2 ^ 53) with hs | hs
  · have ht : t = 0 := by
      by_contra hc
      have h3 : (2 : ℕ) ^ 53 ≤ 2 ^ (52 + t) := Nat.pow_le_pow_right (by omega) (by omega)
      omega
    subst ht
    rw [rndNat_small hs, pow_zero, divRound_one, Nat.mul_one]
  · unfold rndNat
    rw [if_neg (by omega)]
    obtain ⟨g1, g2, _⟩ := tOf_spec hs
    have heq : findT P P 0 = t := by
      by_contra hne
      rcases Nat.lt_or_ge (findT P P 0) t with hlt | hge
      · have h3 : (2 : ℕ) ^ (53 + findT P P 0) ≤ 2 ^ (52 + t) :=
          Nat.pow_le_pow_right (by omega) (by omega)
        omega
      · have htlt : t < findT P P 0 := by omega
        have h3 : (2 : ℕ) ^ (53 + t) ≤ 2 ^ (52 + findT P P 0) :=
          Nat.pow_le_pow_right (by omega) (by omega)
        omega
    rw [heq]

lemma rndNat_le (P : Nat) : 2 ^ 53 * rndNat P ≤ 2 ^ 53 * P + P := by
  rcases Nat.lt_or_ge P (2 ^ 53) with hs | hs
  · rw [rndNat_small hs]
    omega
  · obtain ⟨g1, g2, _⟩ := tOf_spec hs
    rw [rndNat_eq_of_binade g2 g1]
    have hub := divRound_ub P (2 ^ findT P P 0) (Nat.one_le_two_pow)
    rw [pow_add] at g2
    calc 2 ^ 53 * (divRound P (2 ^ findT P P 0) * 2 ^ findT P P 0)
        = 2 ^ 52 * (2 * 2 ^ findT P P 0 * divRound P (2 ^ findT P P 0)) := by ring
      _ ≤ 2 ^ 52 * (2 * P + 2 ^ findT P P 0) := Nat.mul_le_mul_left _ hub
      _ = 2 ^ 53 * P + 2 ^ 52 * 2 ^ findT P P 0 := by ring
      _ ≤ 2 ^ 53 * P + P := by omega

lemma rndNat_ge (P : Nat) : 2 ^ 53 * P ≤ 2 ^ 53 * rndNat P + P := by
  rcases Nat.lt_or_ge P (2 ^ 53) with hs | hs
  · rw [rndNat_small hs]
    omega
  · obtain ⟨g1, g2, _⟩ := tOf_spec hs
    rw [rndNat_eq_of_binade g2 g1]
    have hlb := divRound_lb P (2 ^ findT P P 0) (Nat.one_le_two_pow)
    rw [pow_add] at g2
    calc 2 ^ 53 * P = 2 ^ 52 * (2 * P) := by ring
      _ ≤ 2 ^ 52 * (2 * 2 ^ findT P P 0 * divRound P (2 ^ findT P P 0) + 2 ^ findT P P 0) :=
          Nat.mul_le_mul_left _ hlb
      _ = 2 ^ 53 * (divRound P (2 ^ findT P P 0) * 2 ^ findT P P 0)
            + 2 ^ 52 * 2 ^ findT P P 0 := by ring
      _ ≤ 2 ^ 53 * (divRound P (2 ^ findT P P 0) * 2 ^ findT P P 0) + P := by omega

lemma rndNat_lb_binade {P : Nat} (hs : 2 ^ 53 ≤ P) :
    2 ^ (52 + findT P P 0) ≤ rndNat P := by
  obtain ⟨g1, g2, _⟩ := tOf_spec hs
  rw [rndNat_eq_of_binade g2 g1]
  have hq : 2 ^ 52 ≤ P / 2 ^ findT P P 0 := by
    rw [Nat.le_div_iff_mul_le (Nat.pos_pow_of_pos _ (by omega))]
    rw [pow_add] at g2
    omega
  calc 2 ^ (52 + findT P P 0) = 2 ^ 52 * 2 ^ findT P P 0 := pow_add 2 52 _
    _ ≤ P / 2 ^ findT P P 0 * 2 ^ findT P P 0 := Nat.mul_le_mul_right _ hq
    _ ≤ divRound P (2 ^ findT P P 0) * 2 ^ findT P P 0 :=
        Nat.mul_le_mul_right _ (le_divRound _ _)

lemma rndNat_ub_binade {P : Nat} (hs : 2 ^ 53 ≤ P) :
    rndNat P ≤ 2 ^ (53 + findT P P 0) := by
  obtain ⟨g1, g2, _⟩ := tOf_spec hs
  rw [rndNat_eq_of_binade g2 g1]
  have hq : P / 2 ^ findT P P 0 < 2 ^ 53 := by
    rw [Nat.div_lt_iff_lt_mul (Nat.pos_pow_of_pos _ (by omega))]
    rw [pow_add] at g1
    omega
  have hd : divRound P (2 ^ findT P P 0) ≤ 2 ^ 53 :=
    le_trans (divRound_le_succ _ _) (by omega)
  calc divRound P (2 ^ findT P P 0) * 2 ^ findT P P 0
      ≤ 2 ^ 53 * 2 ^ findT P P 0 := Nat.mul_le_mul_right _ hd
    _ = 2 ^ (53 + findT P P 0) := (pow_add 2 53 _).symm

lemma rndNat_mono {P P' : Nat} (h : P ≤ P') : rndNat P ≤ rndNat P' := by
  rcases Nat.lt_or_ge P (2 ^ 53) with hs | hs
  · rcases Nat.lt_or_ge P' (2 ^ 53) with hs' | hs'
    · rw [rndNat_small hs, rndNat_small hs']
      exact h
    · rw [rndNat_small hs]
      obtain ⟨_, _, ht1'⟩ := tOf_spec hs'
      have hlow : (2 : ℕ) ^ 53 ≤ 2 ^ (52 + findT P' P' 0) :=
        Nat.pow_le_pow_right (by omega) (by omega)
      have := rndNat_lb_binade hs'
      omega
  · have hs' : 2 ^ 53 ≤ P' := le_trans hs h
    obtain ⟨g1, g2, _⟩ := tOf_spec hs
    obtain ⟨g1', g2', _⟩ := tOf_spec hs'
    have htle : findT P P 0 ≤ findT P' P' 0 := by
      by_contra hc
      have h3 : (2 : ℕ) ^ (53 + findT P' P' 0) ≤ 2 ^ (52 + findT P P 0) :=
        Nat.pow_le_pow_right (by omega) (by omega)
      omega
    rcases Nat.eq_or_lt_of_le htle with hteq | htlt
    · rw [rndNat_eq_of_binade g2 g1, rndNat_eq_of_binade g2' g1', ← hteq]
      exact Nat.mul_le_mul_right _ (divRound_mono _ h)
    · have hu := rndNat_ub_binade hs
      have hl := rndNat_lb_binade hs'
      have h3 : (2 : ℕ) ^ (53 + findT P P 0) ≤ 2 ^ (52 + findT P' P' 0) :=
        Nat.pow_le_pow_right (by omega) (by omega)
      omega

lemma rndNat_shift (P j : Nat) : rndNat (P * 2 ^ j) = rndNat P * 2 ^ j := by
  rcases Nat.lt_or_ge (P * 2 ^ j) (2 ^ 53) with hA | hA
  · have hP : P < 2 ^ 53 :=
      lt_of_le_of_lt (Nat.le_mul_of_pos_right P (Nat.pos_pow_of_pos _ (by omega))) hA
    rw [rndNat_small hA, rndNat_small hP]
  · rcases Nat.lt_or_ge P (2 ^ 53) with hB | hB
    · rw [rndNat_small hB]
      obtain ⟨g1, g2, _⟩ := tOf_spec hA
      have htj : findT (P * 2 ^ j) (P * 2 ^ j) 0 ≤ j := by
        by_contra hc
        have h3 : (2 : ℕ) ^ (53 + j) ≤ 2 ^ (52 + findT (P * 2 ^ j) (P * 2 ^ j) 0) :=
          Nat.pow_le_pow_right (by omega) (by omega)
        have h4 : P * 2 ^ j < 2 ^ 53 * 2 ^ j :=
          (Nat.mul_lt_mul_right (Nat.pos_pow_of_pos _ (by omega))).2 hB
        rw [← pow_add] at h4
        omega
      rw [rndNat_eq_of_binade g2 g1]
      have hsplit : P * 2 ^ j =
          P * 2 ^ (j - findT (P * 2 ^ j) (P * 2 ^ j) 0) * 2 ^ findT (P * 2 ^ j) (P * 2 ^ j) 0 := by
        rw [Nat.mul_assoc, ← pow_add]
        congr 2
        omega
      calc divRound (P * 2 ^ j) (2 ^ findT (P * 2 ^ j) (P * 2 ^ j) 0)
            * 2 ^ findT (P * 2 ^ j) (P * 2 ^ j) 0
          = divRound (P * 2 ^ (j - findT (P * 2 ^ j) (P * 2 ^ j) 0)
                * 2 ^ findT (P * 2 ^ j) (P * 2 ^ j) 0)
              (1 * 2 ^ findT (P * 2 ^ j) (P * 2 ^ j) 0)
            * 2 ^ findT (P * 2 ^ j) (P * 2 ^ j) 0 := by
            rw [← hsplit, Nat.one_mul]
        _ = divRound (P * 2 ^ (j - findT (P * 2 ^ j) (P * 2 ^ j) 0)) 1
            * 2 ^ findT (P * 2 ^ j) (P * 2 ^ j) 0 := by
            rw [divRound_mul_right _ _ _ (Nat.pos_pow_of_pos _ (by omega))]
        _ = P * 2 ^ j := by
            rw [divRound_one, Nat.mul_assoc, ← pow_add]
            congr 2
            omega
    · obtain ⟨g1, g2, _⟩ := tOf_spec hB
      have gj1 : P * 2 ^ j < 2 ^ (53 + (findT P P 0 + j)) := by
        have := (Nat.mul_lt_mul_right (Nat.pos_pow_of_pos j (show 0 < 2 by omega))).2 g1
        rw [← pow_add] at this
        rw [show 53 + (findT P P 0 + j) = 53 + findT P P 0 + j by omega]
        exact this
      have gj2 : 2 ^ (52 + (findT P P 0 + j)) ≤ P * 2 ^ j := by
        have := Nat.mul_le_mul_right (2 ^ j) g2
        rw [← pow_add] at this
        rw [show 52 + (findT P P 0 + j) = 52 + findT P P 0 + j by omega]
        exact this
      rw [rndNat_eq_of_binade gj2 gj1, rndNat_eq_of_binade g2 g1,
        pow_add, divRound_mul_right _ _ _ (Nat.pos_pow_of_pos _ (by omega))]
      ring

lemma fldivE_spec {i b : Nat} (hi : 1 ≤ i) (hib : i < b) :
    2 ^ 52 * b ≤ i * 2 ^ fldivE i b ∧
    i * 2 ^ fldivE i b < 2 ^ 53 * b ∧
    53 ≤ fldivE i b ∧
    ∀ e < fldivE i b, i * 2 ^ e < 2 ^ 52 * b := by
  have hfuel : 2 ^ 52 * b ≤ i * 2 ^ (0 + (53 + b)) := by
    have h1 : b ≤ 2 ^ b := Nat.le_of_lt (Nat.lt_two_pow b)
    calc 2 ^ 52 * b ≤ 2 ^ 52 * 2 ^ b := Nat.mul_le_mul_left _ h1
      _ = 2 ^ (52 + b) := (pow_add 2 52 b).symm
      _ ≤ 2 ^ (0 + (53 + b)) := Nat.pow_le_pow_right (by omega) (by omega)
      _ ≤ i * 2 ^ (0 + (53 + b)) := Nat.le_mul_of_pos_left _ hi
  obtain ⟨h1, h2⟩ :
      2 ^ 52 * b ≤ i * 2 ^ fldivE i b ∧ ∀ e < fldivE i b, i * 2 ^ e < 2 ^ 52 * b :=
    findE_spec i (2 ^ 52 * b) (53 + b) 0 (by omega) hfuel
  have hE53 : 53 ≤ fldivE i b := by
    by_contra hc
    have hpow : (2 : ℕ) ^ fldivE i b ≤ 2 ^ 52 := Nat.pow_le_pow_right (by omega) (by omega)
    have hle : i * 2 ^ fldivE i b ≤ i * 2 ^ 52 := Nat.mul_le_mul_left _ hpow
    omega
  refine ⟨h1, ?_, hE53, h2⟩
  have hm := h2 (fldivE i b - 1) (by omega)
  have hdouble : i * 2 ^ fldivE i b = 2 * (i * 2 ^ (fldivE i b - 1)) := by
    have hE : fldivE i b = fldivE i b - 1 + 1 := by omega
    conv_lhs => rw [hE]
    rw [pow_succ]
    ring
  omega

lemma fldivM_lb {i b : Nat} (hi : 1 ≤ i) (hib : i < b) : 2 ^ 52 ≤ fldivM i b := by
  obtain ⟨h1, _, _, _⟩ := fldivE_spec hi hib
  have hlb := divRound_lb (i * 2 ^ fldivE i b) b (by omega)
  have key : b * 2 ^ 53 ≤ b * (2 * fldivM i b + 1) := by
    calc b * 2 ^ 53 = 2 * (2 ^ 52 * b) := by ring
      _ ≤ 2 * (i * 2 ^ fldivE i b) := by omega
      _ ≤ 2 * b * fldivM i b + b := hlb
      _ = b * (2 * fldivM i b + 1) := by ring
  have := Nat.le_of_mul_le_mul_left key (by omega)
  omega

lemma fldivM_ub {i b : Nat} (hi : 1 ≤ i) (hib : i < b) : fldivM i b ≤ 2 ^ 53 := by
  obtain ⟨_, h2, _, _⟩ := fldivE_spec hi hib
  have hub := divRound_ub (i * 2 ^ fldivE i b) b (by omega)
  have key : b * (2 * fldivM i b) ≤ b * (2 * 2 ^ 53 + 1) := by
    calc b * (2 * fldivM i b) = 2 * b * fldivM i b := by ring
      _ ≤ 2 * (i * 2 ^ fldivE i b) + b := hub
      _ ≤ b * (2 * 2 ^ 53 + 1) := by
          have : 2 * (i * 2 ^ fldivE i b) ≤ 2 * (2 ^ 53 * b) := by omega
          calc 2 * (i * 2 ^ fldivE i b) + b ≤ 2 * (2 ^ 53 * b) + b := by omega
            _ = b * (2 * 2 ^ 53 + 1) := by ring
  have := Nat.le_of_mul_le_mul_left key (by omega)
  omega

lemma fldivE_anti {b : Nat} {i i' : Nat} (hi : 1 ≤ i) (hii : i ≤ i') (hib : i' < b) :
    fldivE i' b ≤ fldivE i b := by
  have hi' : 1 ≤ i' := le_trans hi hii
  obtain ⟨h1, _, _, _⟩ := fldivE_spec hi (lt_of_le_of_lt hii hib)
  obtain ⟨_, _, _, hmin'⟩ := fldivE_spec hi' hib
  by_contra hc
  have hlow := hmin' (fldivE i b) (by omega)
  have hmono : i * 2 ^ fldivE i b ≤ i' * 2 ^ fldivE i b := Nat.mul_le_mul_right _ hii
  omega

lemma fldiv_value_mono {b : Nat} {i i' : Nat} (hi : 1 ≤ i) (hii : i ≤ i') (hib : i' < b) :
    fldivM i b * 2 ^ fldivE i' b ≤ fldivM i' b * 2 ^ fldivE i b := by
  have hi' : 1 ≤ i' := le_trans hi hii
  have hibi : i < b := lt_of_le_of_lt hii hib
  have hEle := fldivE_anti hi hii hib
  rcases Nat.eq_or_lt_of_le hEle with hEeq | hElt
  · have hm : fldivM i b ≤ fldivM i' b := by
      have h1 : fldivM i' b = divRound (i' * 2 ^ fldivE i b) b := by
        unfold fldivM
        rw [hEeq]
      rw [h1]
      exact divRound_mono b (Nat.mul_le_mul_right _ hii)
    rw [hEeq]
    exact Nat.mul_le_mul_right _ hm
  · have h1 := fldivM_ub hi hibi
    have h2 := fldivM_lb hi' hib
    calc fldivM i b * 2 ^ fldivE i' b ≤ 2 ^ 53 * 2 ^ fldivE i' b :=
          Nat.mul_le_mul_right _ h1
      _ = 2 ^ (53 + fldivE i' b) := (pow_add 2 53 _).symm
      _ ≤ 2 ^ (52 + fldivE i b) := Nat.pow_le_pow_right (by omega) (by omega)
      _ = 2 ^ 52 * 2 ^ fldivE i b := pow_add 2 52 _
      _ ≤ fldivM i' b * 2 ^ fldivE i b := Nat.mul_le_mul_right _ h2

lemma floatIdx_mono {b k : Nat} {i i' : Nat} (hi : 1 ≤ i) (hii : i ≤ i') (hib : i' < b) :
    floatIdx i b k ≤ floatIdx i' b k := by
  unfold floatIdx
  have hPm : fldivM i b * rndNat k * 2 ^ fldivE i' b ≤
      fldivM i' b * rndNat k * 2 ^ fldivE i b := by
    calc fldivM i b * rndNat k * 2 ^ fldivE i' b
        = fldivM i b * 2 ^ fldivE i' b * rndNat k := by ring
      _ ≤ fldivM i' b * 2 ^ fldivE i b * rndNat k :=
          Nat.mul_le_mul_right _ (fldiv_value_mono hi hii hib)
      _ = fldivM i' b * rndNat k * 2 ^ fldivE i b := by ring
  have hrnd : rndNat (fldivM i b * rndNat k) * 2 ^ fldivE i' b ≤
      rndNat (fldivM i' b * rndNat k) * 2 ^ fldivE i b := by
    rw [← rndNat_shift, ← rndNat_shift]
    exact rndNat_mono hPm
  rw [Nat.le_div_iff_mul_le (Nat.pos_pow_of_pos _ (by omega))]
  have h2 : rndNat (fldivM i b * rndNat k) / 2 ^ fldivE i b * 2 ^ fldivE i' b
        * 2 ^ fldivE i b ≤
      rndNat (fldivM i' b * rndNat k) * 2 ^ fldivE i b := by
    calc rndNat (fldivM i b * rndNat k) / 2 ^ fldivE i b * 2 ^ fldivE i' b
          * 2 ^ fldivE i b
        = rndNat (fldivM i b * rndNat k) / 2 ^ fldivE i b * 2 ^ fldivE i b
          * 2 ^ fldivE i' b := by ring
      _ ≤ rndNat (fldivM i b * rndNat k) * 2 ^ fldivE i' b :=
          Nat.mul_le_mul_right _ (Nat.div_mul_le_self _ _)
      _ ≤ rndNat (fldivM i' b * rndNat k) * 2 ^ fldivE i b := hrnd
  exact Nat.le_of_mul_le_mul_right h2 (Nat.pos_pow_of_pos _ (by omega))

lemma floatIdx_le {i b k : Nat} (hi : 1 ≤ i) (hib : i < b) (hble : b ≤ 2 ^ 53)
    (hk : k < 2 ^ 53) : floatIdx i b k ≤ k := by
  obtain ⟨h1, h2, hE53, _⟩ := fldivE_spec hi hib
  have h2E : (2 : ℕ) ^ 53 ≤ 2 ^ fldivE i b := Nat.pow_le_pow_right (by omega) hE53
  have hub := divRound_ub (i * 2 ^ fldivE i b) b (by omega)
  unfold floatIdx
  rw [rndNat_small hk, ← Nat.lt_succ_iff,
    Nat.div_lt_iff_lt_mul (Nat.pos_pow_of_pos _ (by omega))]
  have hR := rndNat_le (fldivM i b * k)
  have hi2E : i * 2 ^ fldivE i b ≤ (b - 1) * 2 ^ fldivE i b :=
    Nat.mul_le_mul_right _ (by omega)
  have hchain : 2 * b * (2 ^ 53 * rndNat (fldivM i b * k)) ≤
      (2 ^ 53 + 1) * k * (2 * ((b - 1) * 2 ^ fldivE i b) + b) := by
    calc 2 * b * (2 ^ 53 * rndNat (fldivM i b * k))
        ≤ 2 * b * (2 ^ 53 * (fldivM i b * k) + fldivM i b * k) :=
          Nat.mul_le_mul_left _ hR
      _ = (2 ^ 53 + 1) * k * (2 * b * fldivM i b) := by ring
      _ ≤ (2 ^ 53 + 1) * k * (2 * (i * 2 ^ fldivE i b) + b) :=
          Nat.mul_le_mul_left _ hub
      _ ≤ (2 ^ 53 + 1) * k * (2 * ((b - 1) * 2 ^ fldivE i b) + b) := by
          apply Nat.mul_le_mul_left
          omega
  have hc1 : 2 * (2 ^ 53 + 1) * (b - 1) ≤ 2 ^ 54 * b := by omega
  have hp1 : 2 * (2 ^ 53 + 1) * (b - 1) * (k * 2 ^ fldivE i b) ≤
      2 ^ 54 * b * (k * 2 ^ fldivE i b) := Nat.mul_le_mul_right _ hc1
  have hc2 : (2 ^ 53 + 1) * k < 2 ^ 54 * 2 ^ fldivE i b := by
    have ha : (2 ^ 53 + 1) * k ≤ (2 ^ 53 + 1) * (2 ^ 53 - 1) :=
      Nat.mul_le_mul_left _ (by omega)
    have hb53 : (2 : ℕ) ^ 54 * 2 ^ 53 ≤ 2 ^ 54 * 2 ^ fldivE i b :=
      Nat.mul_le_mul_left _ h2E
    have hlit : ((2 : ℕ) ^ 53 + 1) * (2 ^ 53 - 1) < 2 ^ 54 * 2 ^ 53 := by norm_num
    omega
  have hp2 : (2 ^ 53 + 1) * k * b < 2 ^ 54 * 2 ^ fldivE i b * b :=
    (Nat.mul_lt_mul_right (by omega)).2 hc2
  have hkey : (2 ^ 53 + 1) * k * (2 * ((b - 1) * 2 ^ fldivE i b) + b) <
      2 * b * (2 ^ 53 * ((k + 1) * 2 ^ fldivE i b)) := by
    nlinarith [hp1, hp2]
  have hfinal : 2 * b * (2 ^ 53 * rndNat (fldivM i b * k)) <
      2 * b * (2 ^ 53 * ((k + 1) * 2 ^ fldivE i b)) := lt_of_le_of_lt hchain hkey
  have hs1 : 2 ^ 53 * rndNat (fldivM i b * k) <
      2 ^ 53 * ((k + 1) * 2 ^ fldivE i b) :=
    Nat.lt_of_mul_lt_mul_left hfinal
  exact Nat.lt_of_mul_lt_mul_left hs1

lemma floatIdx_zero (i b : Nat) : floatIdx i b 0 = 0 := by
  have h0 : rndNat 0 = 0 := rndNat_small (by norm_num)
  unfold floatIdx
  rw [h0, Nat.mul_zero, h0, Nat.zero_div]

/-- The double-precision index never exceeds the exact mathematical floor
`⌊i·k/b⌋` (for feasible magnitudes `b·k < 2^51`). -/
lemma floatIdx_le_exact {i b k : Nat} (hi : 1 ≤ i) (hib : i < b)
    (hbk : b * k < 2 ^ 51) : floatIdx i b k ≤ i * k / b := by
  rcases Nat.eq_zero_or_pos k with hk0 | hk1
  · subst hk0
    rw [floatIdx_zero]
    exact Nat.zero_le _
  · have hkb : k ≤ b * k := Nat.le_mul_of_pos_left k (by omega)
    have hk53 : k < 2 ^ 53 := by omega
    obtain ⟨hbin, _, hE53, _⟩ := fldivE_spec hi hib
    have h2E : (2 : ℕ) ^ 53 ≤ 2 ^ fldivE i b := Nat.pow_le_pow_right (by omega) hE53
    have hub := divRound_ub (i * 2 ^ fldivE i b) b (by omega)
    have hN51 : i * k < 2 ^ 51 :=
      lt_of_le_of_lt (Nat.mul_le_mul_right k (le_of_lt hib)) hbk
    unfold floatIdx
    rw [rndNat_small hk53]
    have hR2 : 2 ^ 53 * rndNat (fldivM i b * k) ≤ (2 ^ 53 + 1) * (fldivM i b * k) := by
      have h := rndNat_le (fldivM i b * k)
      calc 2 ^ 53 * rndNat (fldivM i b * k)
          ≤ 2 ^ 53 * (fldivM i b * k) + fldivM i b * k := h
        _ = (2 ^ 53 + 1) * (fldivM i b * k) := by ring
    have hA : 2 * (i * k) * 2 ^ fldivE i b ≤ 2 * (2 ^ 51 - 1) * 2 ^ fldivE i b :=
      Nat.mul_le_mul_right _ (by omega)
    have hB : (2 ^ 53 + 1) * (k * b) ≤ (2 ^ 53 + 1) * (2 ^ 51 - 1) :=
      Nat.mul_le_mul_left _ (by rw [Nat.mul_comm]; omega)
    have hC : ((2 : ℕ) ^ 53 + 1) * (2 ^ 51 - 1) < 2 ^ 52 * 2 ^ 53 := by norm_num
    have hD : (2 : ℕ) ^ 52 * 2 ^ 53 ≤ 2 ^ 52 * 2 ^ fldivE i b :=
      Nat.mul_le_mul_left _ h2E
    have hcoef : 2 * (2 ^ 51 - 1) * 2 ^ fldivE i b + 2 ^ 52 * 2 ^ fldivE i b <
        2 ^ 54 * 2 ^ fldivE i b := by
      have hc : 2 * (2 ^ 51 - 1) + 2 ^ 52 < 2 ^ 54 := by norm_num
      calc 2 * (2 ^ 51 - 1) * 2 ^ fldivE i b + 2 ^ 52 * 2 ^ fldivE i b
          = (2 * (2 ^ 51 - 1) + 2 ^ 52) * 2 ^ fldivE i b := by ring
        _ < 2 ^ 54 * 2 ^ fldivE i b :=
            (Nat.mul_lt_mul_right (Nat.pos_pow_of_pos _ (by omega))).2 hc
    have key2 : (2 ^ 53 + 1) * (2 * (i * k) * 2 ^ fldivE i b + k * b) <
        2 ^ 54 * ((i * k + 1) * 2 ^ fldivE i b) := by nlinarith [hA, hB, hC, hD, hcoef]
    have hchain : 2 ^ 54 * (rndNat (fldivM i b * k) * b) <
        2 ^ 54 * ((i * k + 1) * 2 ^ fldivE i b) := by
      calc 2 ^ 54 * (rndNat (fldivM i b * k) * b)
          = 2 * b * (2 ^ 53 * rndNat (fldivM i b * k)) := by ring
        _ ≤ 2 * b * ((2 ^ 53 + 1) * (fldivM i b * k)) := Nat.mul_le_mul_left _ hR2
        _ = (2 ^ 53 + 1) * k * (2 * b * fldivM i b) := by ring
        _ ≤ (2 ^ 53 + 1) * k * (2 * (i * 2 ^ fldivE i b) + b) := Nat.mul_le_mul_left _ hub
        _ = (2 ^ 53 + 1) * (2 * (i * k) * 2 ^ fldivE i b + k * b) := by ring
        _ < 2 ^ 54 * ((i * k + 1) * 2 ^ fldivE i b) := key2
    have hRb : rndNat (fldivM i b * k) * b < (i * k + 1) * 2 ^ fldivE i b :=
      Nat.lt_of_mul_lt_mul_left hchain
    rw [← Nat.lt_succ_iff, Nat.div_lt_iff_lt_mul (Nat.pos_pow_of_pos _ (by omega))]
    have hmod := Nat.div_add_mod (i * k) b
    have hr : i * k % b < b := Nat.mod_lt _ (by omega)
    have hNle : i * k + 1 ≤ (i * k / b + 1) * b := by
      have hexp : (i * k / b + 1) * b = b * (i * k / b) + b := by ring
      omega
    have hstep : (i * k + 1) * 2 ^ fldivE i b ≤
        (i * k / b + 1) * 2 ^ fldivE i b * b := by
      calc (i * k + 1) * 2 ^ fldivE i b
          ≤ (i * k / b + 1) * b * 2 ^ fldivE i b := Nat.mul_le_mul_right _ hNle
        _ = (i * k / b + 1) * 2 ^ fldivE i b * b := by ring
    have hfin : rndNat (fldivM i b * k) * b < (i * k / b + 1) * 2 ^ fldivE i b * b :=
      lt_of_lt_of_le hRb hstep
    exact Nat.lt_of_mul_lt_mul_right hfin

/-- The double-precision index falls at most one below the exact floor. -/
lemma exact_le_floatIdx_succ {i b k : Nat} (hi : 1 ≤ i) (hib : i < b)
    (hbk : b * k < 2 ^ 51) : i * k / b ≤ floatIdx i b k + 1 := by
  rcases Nat.eq_zero_or_pos k with hk0 | hk1
  · subst hk0
    simp
  · have hkb : k ≤ b * k := Nat.le_mul_of_pos_left k (by omega)
    have hk53 : k < 2 ^ 53 := by omega
    have hble : b ≤ 2 ^ 53 := by
      have : b ≤ b * k := Nat.le_mul_of_pos_right b hk1
      omega
    obtain ⟨hbin, _, hE53, _⟩ := fldivE_spec hi hib
    have h2E : (2 : ℕ) ^ 53 ≤ 2 ^ fldivE i b := Nat.pow_le_pow_right (by omega) hE53
    have hlbd := divRound_lb (i * 2 ^ fldivE i b) b (by omega)
    have hyk : floatIdx i b k ≤ k := floatIdx_le hi hib hble hk53
    by_contra hcon
    have hX : floatIdx i b k + 2 ≤ i * k / b := by omega
    have h3 : b * (floatIdx i b k + 2) ≤ i * k := by
      calc b * (floatIdx i b k + 2) ≤ b * (i * k / b) := Nat.mul_le_mul_left _ hX
        _ ≤ i * k := Nat.mul_div_le _ _
    unfold floatIdx at *
    rw [rndNat_small hk53] at *
    have hR := rndNat_ge (fldivM i b * k)
    have h2 : (2 ^ 53 - 1) * (fldivM i b * k) ≤ 2 ^ 53 * rndNat (fldivM i b * k) := by
      omega
    have hdm := Nat.div_add_mod (rndNat (fldivM i b * k)) (2 ^ fldivE i b)
    have hm2 : rndNat (fldivM i b * k) % 2 ^ fldivE i b < 2 ^ fldivE i b :=
      Nat.mod_lt _ (Nat.pos_pow_of_pos _ (by omega))
    have h4 : rndNat (fldivM i b * k) + 1 ≤
        (rndNat (fldivM i b * k) / 2 ^ fldivE i b + 1) * 2 ^ fldivE i b := by
      have hexp : (rndNat (fldivM i b * k) / 2 ^ fldivE i b + 1) * 2 ^ fldivE i b =
          2 ^ fldivE i b * (rndNat (fldivM i b * k) / 2 ^ fldivE i b) +
            2 ^ fldivE i b := by ring
      omega
    have h1 : 2 * (i * k) * 2 ^ fldivE i b ≤ 2 * b * (fldivM i b * k) + b * k := by
      calc 2 * (i * k) * 2 ^ fldivE i b = 2 * (i * 2 ^ fldivE i b) * k := by ring
        _ ≤ (2 * b * fldivM i b + b) * k := Nat.mul_le_mul_right _ hlbd
        _ = 2 * b * (fldivM i b * k) + b * k := by ring
    -- combine: (2^53-1)·2N·2^E ≤ 2b·2^53·R + (2^53-1)·bk while N ≥ b(y+2),
    -- R < (y+1)·2^E, y ≤ k < 2^51, 2^E ≥ 2^53 force a contradiction.
    nlinarith [Nat.mul_le_mul_left (2 ^ 53 - 1) h1,
      Nat.mul_le_mul_left (2 * b) h2,
      Nat.mul_le_mul_right (2 ^ fldivE i b)
        (Nat.mul_le_mul_left ((2 ^ 53 - 1) * 2) h3),
      Nat.mul_le_mul_left (2 * b * 2 ^ 53) h4,
      Nat.mul_le_mul_right (2 ^ fldivE i b) hyk,
      h2E, hbk, hkb, hm2, hdm]

lemma bucketBoundaries_length (ss : List ℤ) (s b : Nat) :
    (bucketBoundaries ss s b).length = b - 1 := by
  simp [bucketBoundaries]

lemma bucketBoundaries_getElem (ss : List ℤ) (s b : Nat) {k : Nat}
    (hk : k < (bucketBoundaries ss s b).length) :
    (bucketBoundaries ss s b)[k] = ss.getD (floatIdx (1 + k) b (s - 1)) 0 := by
  simp [bucketBoundaries]

lemma bucketBoundaries_sorted (ss : List ℤ) (s b : Nat)
    (hsort : ss.Sorted (· ≤ ·)) (hslen : s ≤ ss.length) (hs : 1 ≤ s)
    (hble : b ≤ 2 ^ 53) (hsle : s ≤ 2 ^ 53) :
    (bucketBoundaries ss s b).Sorted (· ≤ ·) := by
  rw [List.Sorted, List.pairwise_iff_getElem]
  intro i j hi hj hij
  rw [bucketBoundaries_length] at hi hj
  rw [bucketBoundaries_getElem ss s b (by rw [bucketBoundaries_length]; omega),
    bucketBoundaries_getElem ss s b (by rw [bucketBoundaries_length]; omega)]
  have hjdx : floatIdx (1 + j) b (s - 1) ≤ s - 1 :=
    floatIdx_le (by omega) (by omega) hble (by omega)
  have hmono : floatIdx (1 + i) b (s - 1) ≤ floatIdx (1 + j) b (s - 1) :=
    floatIdx_mono (by omega) (by omega) (by omega)
  exact sorted_getD_mono hsort hmono (by omega)

lemma pipelineBoundaries_length (sample data : List ℤ) :
    (pipelineBoundaries sample data).length = numBuckets data.length - 1 :=
  bucketBoundaries_length _ _ _

lemma numBuckets_le {n : Nat} (hfeas : n < 2 ^ 53) : numBuckets n ≤ 2 ^ 53 := by
  have h1 : isqrt n ≤ n := by
    rw [isqrt_eq_sqrt]
    exact Nat.sqrt_le_self n
  unfold numBuckets
  omega

lemma pipelineBoundaries_sorted (sample data : List ℤ)
    (hsam : sample.length = sampleSize data.length)
    (hfeas : data.length < 2 ^ 53) :
    (pipelineBoundaries sample data).Sorted (· ≤ ·) := by
  by_cases hn : data.length = 0
  · have : numBuckets data.length = 1 := by rw [hn]; rfl
    unfold pipelineBoundaries
    rw [this]
    simp [bucketBoundaries, List.Sorted]
  · refine bucketBoundaries_sorted _ _ _ (List.sorted_insertionSort _ _) ?_ ?_ ?_ ?_
    · rw [List.length_insertionSort, hsam]
    · exact sampleSize_pos (by omega)
    · exact numBuckets_le hfeas
    · have := sampleSize_le_self data.length
      omega

lemma bisect_lt_numBuckets (sample data : List ℤ) (y : ℤ) :
    bisect_left (pipelineBoundaries sample data) y < numBuckets data.length := by
  have h1 := bisect_left_le_length (pipelineBoundaries sample data) y
  rw [pipelineBoundaries_length] at h1
  have h2 := numBuckets_pos data.length
  omega

lemma length_appendAt (bs : List (List ℤ)) (i : Nat) (x : ℤ) :
    (appendAt bs i x).length = bs.length := by
  simp [appendAt]

lemma getD_appendAt_self {bs : List (List ℤ)} {i : Nat} (x : ℤ)
    (h : i < bs.length) :
    (appendAt bs i x).getD i [] = bs.getD i [] ++ [x] := by
  unfold appendAt
  rw [List.getD_eq_getElem?_getD, List.getElem?_set_self (by simpa using h)]
  rfl

lemma getD_appendAt_ne {bs : List (List ℤ)} {i j : Nat} (x : ℤ) (h : i ≠ j) :
    (appendAt bs i x).getD j [] = bs.getD j [] := by
  unfold appendAt
  rw [List.getD_eq_getElem?_getD, List.getElem?_set_ne h, ← List.getD_eq_getElem?_getD]

lemma length_assignAll (bnd : List ℤ) :
    ∀ (data : List ℤ) (bs : List (List ℤ)),
      (assignAll bnd bs data).length = bs.length := by
  intro data
  induction data with
  | nil => intro bs; rfl
  | cons x d ih =>
    intro bs
    show (assignAll bnd (appendAt bs (bisect_left bnd x) x) d).length = bs.length
    rw [ih, length_appendAt]

lemma assignAll_getD (bnd : List ℤ) :
    ∀ (data : List ℤ) (bs : List (List ℤ)) (j : Nat),
      (∀ y ∈ data, bisect_left bnd y < bs.length) →
      (assignAll bnd bs data).getD j [] =
        bs.getD j [] ++ data.filter (fun y => decide (bisect_left bnd y = j)) := by
  intro data
  induction data with
  | nil => intro bs j _; simp [assignAll]
  | cons x d ih =>
    intro bs j hvalid
    have hvd : ∀ y ∈ d, bisect_left bnd y < (appendAt bs (bisect_left bnd x) x).length := by
      intro y hy
      rw [length_appendAt]
      exact hvalid y (List.mem_cons_of_mem x hy)
    show (assignAll bnd (appendAt bs (bisect_left bnd x) x) d).getD j [] = _
    rw [ih _ j hvd]
    by_cases hcase : bisect_left bnd x = j
    · rw [hcase, getD_appendAt_self x
        (hcase ▸ hvalid x (List.mem_cons_self x d)),
        List.filter_cons_of_pos (by simpa using hcase), List.append_assoc,
        List.singleton_append]
    · rw [getD_appendAt_ne x hcase,
        List.filter_cons_of_neg (by simpa using hcase)]

lemma getElem_eq_getD_nil {bs : List (List ℤ)} {i : Nat} (h : i < bs.length) :
    bs[i] = bs.getD i [] :=
  (getD_eq_getElem h).symm

lemma getD_replicate_nil (b j : Nat) :
    (List.replicate b ([] : List ℤ)).getD j [] = [] := by
  rw [List.getD_eq_getElem?_getD]
  by_cases h : j < b
  · rw [List.getElem?_eq_getElem (by simpa using h)]
    simp
  · rw [List.getElem?_eq_none (by simpa using Nat.le_of_not_lt h)]
    rfl

lemma assignAll_eq_map_filter (bnd data : List ℤ) (b : Nat)
    (hvalid : ∀ y ∈ data, bisect_left bnd y < b) :
    assignAll bnd (List.replicate b []) data =
      (List.range b).map
        (fun j => data.filter (fun y => decide (bisect_left bnd y = j))) := by
  apply List.ext_getElem
  · rw [length_assignAll]; simp
  · intro i h1 h2
    have hib : i < b := by simpa using h2
    rw [getElem_eq_getD_nil h1, getElem_eq_getD_nil h2,
      assignAll_getD bnd data _ i (by simpa using hvalid),
      getD_replicate_nil]
    simp [hib]

lemma bucket_sort_eq (sample data : List ℤ) (h : ¬ data.length = 0) :
    bucket_sort_quantile_based sample data =
      ((List.range (numBuckets data.length)).map
        (fun j => List.insertionSort (· ≤ ·)
          (data.filter
            (fun y => decide (bisect_left (pipelineBoundaries sample data) y = j))))).flatten := by
  unfold bucket_sort_quantile_based
  rw [if_neg h,
    assignAll_eq_map_filter _ _ _ (fun y _ => bisect_lt_numBuckets sample data y)]
  simp only [List.map_map]
  rfl

lemma sum_map_range_ite (c : Nat) :
    ∀ b k : Nat, k < b →
      ((List.range b).map (fun j => if k = j then c else 0)).sum = c := by
  intro b
  induction b with
  | zero => intro k hk; omega
  | succ b ih =>
    intro k hk
    rw [List.range_succ, List.map_append, List.sum_append]
    by_cases hkb : k = b
    · subst hkb
      have hz : ((List.range k).map (fun j => if k = j then c else 0)).sum = 0 := by
        apply List.sum_eq_zero
        intro y hy
        obtain ⟨j, hj, rfl⟩ := List.mem_map.1 hy
        rw [if_neg]
        intro hkj
        exact absurd (List.mem_range.1 hj) (by omega)
      rw [hz]
      simp
    · rw [ih k (by omega)]
      simp [hkb]

lemma count_bucket_sort (sample data : List ℤ) (h : ¬ data.length = 0) (z : ℤ) :
    (bucket_sort_quantile_based sample data).count z = data.count z := by
  rw [bucket_sort_eq sample data h, List.count_flatten, List.map_map]
  have hmap : ((List.range (numBuckets data.length)).map
      ((fun l : List ℤ => l.count z) ∘ fun j => List.insertionSort (· ≤ ·)
        (data.filter
          (fun y => decide (bisect_left (pipelineBoundaries sample data) y = j))))) =
      ((List.range (numBuckets data.length)).map
        (fun j => if bisect_left (pipelineBoundaries sample data) z = j
          then data.count z else 0)) := by
    apply List.map_congr_left
    intro j _
    show (List.insertionSort (· ≤ ·)
      (data.filter
        (fun y => decide (bisect_left (pipelineBoundaries sample data) y = j)))).count z = _
    rw [(List.perm_insertionSort _ _).count_eq]
    by_cases hz : bisect_left (pipelineBoundaries sample data) z = j
    · rw [if_pos hz, List.count_filter (by simpa using hz)]
    · rw [if_neg hz, List.count_eq_zero]
      intro hmem
      exact hz (by simpa using (List.mem_filter.1 hmem).2)
  rw [hmap, sum_map_range_ite _ _ _ (bisect_lt_numBuckets sample data z)]

lemma sorted_bucket_sort (sample data : List ℤ)
    (hsam : sample.length = sampleSize data.length)
    (hfeas : data.length < 2 ^ 53) :
    (bucket_sort_quantile_based sample data).Sorted (· ≤ ·) := by
  by_cases hn : data.length = 0
  · have : data = [] := List.length_eq_zero.1 hn
    subst this
    exact List.sorted_nil
  · rw [bucket_sort_eq sample data hn, List.Sorted, List.pairwise_flatten]
    constructor
    · intro l hl
      obtain ⟨j, _, rfl⟩ := List.mem_map.1 hl
      exact List.sorted_insertionSort _ _
    · rw [List.pairwise_map]
      refine List.Pairwise.imp ?_ (List.pairwise_lt_range _)
      intro j₁ j₂ hj u hu v hv
      rw [List.mem_insertionSort] at hu hv
      have hu' : bisect_left (pipelineBoundaries sample data) u = j₁ := by
        simpa using (List.mem_filter.1 hu).2
      have hv' : bisect_left (pipelineBoundaries sample data) v = j₂ := by
        simpa using (List.mem_filter.1 hv).2
      by_contra hle
      have hvu : v < u := lt_of_not_le hle
      have hsorted := pipelineBoundaries_sorted sample data hsam hfeas
      have hcu := bisect_left_eq_countP u hsorted
      have hcv := bisect_left_eq_countP v hsorted
      have hmono : (pipelineBoundaries sample data).countP (fun y => decide (y < v)) ≤
          (pipelineBoundaries sample data).countP (fun y => decide (y < u)) := by
        apply List.countP_mono_left
        intro y _ hy
        simp only [decide_eq_true_eq] at hy ⊢
        exact lt_trans hy hvu
      rw [← hcu, ← hcv, hu', hv'] at hmono
      omega

/-- C1.  For every input list of feasible size (`n < 2^53`; a CPython list
cannot come near this bound, and below it every list length and sample
index is exact in double precision) and every sample of the size the code
requests (`len(sample) = sample_size`, which `random.sample` guarantees),
`bucket_sort_quantile_based` returns a permutation of the input that is
sorted in non-decreasing order.  The permutation half needs no size bound. -/
theorem bucket_sort_sorted_perm (sample data : List ℤ)
    (hsam : sample.length = sampleSize data.length)
    (hfeas : data.length < 2 ^ 53) :
    (bucket_sort_quantile_based sample data).Perm data ∧
    (bucket_sort_quantile_based sample data).Sorted (· ≤ ·) := by
  constructor
  · by_cases hn : data.length = 0
    · unfold bucket_sort_quantile_based
      rw [if_pos hn]
    · exact List.perm_iff_count.2 (count_bucket_sort sample data hn)
  · exact sorted_bucket_sort sample data hsam hfeas

/-- Witness for C1 at the spec's concrete scenario 1: input `[5,3,1,4,2]`
(for `n = 5` the whole input is sampled). -/
theorem bucket_sort_sorted_perm_witness :
    ([5, 3, 1, 4, 2] : List ℤ).length = sampleSize ([5, 3, 1, 4, 2] : List ℤ).length ∧
    (bucket_sort_quantile_based [5, 3, 1, 4, 2] [5, 3, 1, 4, 2]).Perm [5, 3, 1, 4, 2] ∧
    (bucket_sort_quantile_based [5, 3, 1, 4, 2] [5, 3, 1, 4, 2]).Sorted (· ≤ ·) ∧
    bucket_sort_quantile_based [5, 3, 1, 4, 2] [5, 3, 1, 4, 2] = [1, 2, 3, 4, 5] :=
  ⟨by decide,
    (bucket_sort_sorted_perm [5, 3, 1, 4, 2] [5, 3, 1, 4, 2] (by decide) (by decide)).1,
    (bucket_sort_sorted_perm [5, 3, 1, 4, 2] [5, 3, 1, 4, 2] (by decide) (by decide)).2,
    by decide⟩

/-- C2 counterexample: at `n = 100160` the code computes
`sample_size = min(100160, max(1000, int(100160 * 0.01))) = 1001`
(`int` truncates `1001.6...`), while the claimed formula with rounding to
the nearest integer gives `min(100160, max(1000, round(1001.6))) = 1002`. -/
theorem sampleSize_round_counterexample :
    (sampleSize 100160 : ℤ) = 1001 ∧ sampleSizeSpecRound 100160 = 1002 ∧
    ¬ ((sampleSize 100160 : ℤ) = sampleSizeSpecRound 100160) := by
  have h1 : (sampleSize 100160 : ℤ) = 1001 := by decide
  have h2 : sampleSizeSpecRound 100160 = 1002 := by
    unfold sampleSizeSpecRound
    have hr : round ((100160 : ℕ) / 100 : ℚ) = 1002 := by
      rw [round_eq, Int.floor_eq_iff]
      norm_num
    rw [hr]
    decide
  exact ⟨h1, h2, by rw [h1, h2]; decide⟩

/-- C2 amended: the sample size requested from `random.sample` is
`min(n, max(1000, ⌊0.01·n⌋))` — `int()` truncates `0.01·n` toward zero
instead of rounding it to the nearest integer. -/
theorem sampleSize_eq_floor_formula (n : Nat) :
    (sampleSize n : ℤ) = min (n : ℤ) (max 1000 ⌊(0.01 : ℚ) * n⌋) := by
  have h1 : (0.01 : ℚ) * n = ((n : ℕ) : ℚ) / ((100 : ℕ) : ℚ) := by
    push_cast
    ring
  rw [h1, Rat.floor_natCast_div_natCast, ← Int.natCast_div]
  unfold sampleSize
  rw [Nat.cast_min, Nat.cast_max]
  norm_num

set_option maxRecDepth 8000 in
/-- C3 counterexample, traced through the double-precision semantics of
lines 29–30: with the sorted sample `[0, 1, …, 289]` (`s = 290`) and
`b = 17` buckets, at `i = 13` (boundary position 12, 0-indexed) the code
computes `int((13/17)*289) = int(220.99999999999997…) = 220` and takes
`sortedSample[220] = 220`, while the exact mathematical floor is
`⌊(13/17)·289⌋ = 221` and `sortedSample[221] = 221`. -/
theorem quantile_boundary_float_counterexample :
    ((List.range 290).map (fun j : ℕ => (j : ℤ))).Sorted (· ≤ ·) ∧
    (bucketBoundaries ((List.range 290).map (fun j : ℕ => (j : ℤ))) 290 17).getD 12 0 = 220 ∧
    ((List.range 290).map (fun j : ℕ => (j : ℤ))).getD
      (Int.toNat ⌊(13 : ℚ) / (17 : ℚ) * ((290 : ℚ) - 1)⌋) 0 = 221 ∧
    ¬ ((bucketBoundaries ((List.range 290).map (fun j : ℕ => (j : ℤ))) 290 17).getD 12 0 =
        ((List.range 290).map (fun j : ℕ => (j : ℤ))).getD
          (Int.toNat ⌊(13 : ℚ) / (17 : ℚ) * ((290 : ℚ) - 1)⌋) 0) := by
  have hval : (13 : ℚ) / (17 : ℚ) * ((290 : ℚ) - 1) = 221 := by norm_num
  have hfloor : ⌊(13 : ℚ) / (17 : ℚ) * ((290 : ℚ) - 1)⌋ = 221 := by
    rw [hval]
    norm_num
  have hsorted : ((List.range 290).map (fun j : ℕ => (j : ℤ))).Sorted (· ≤ ·) := by
    refine List.Pairwise.map _ ?_ (List.pairwise_lt_range 290)
    intro a b h
    exact_mod_cast Nat.le_of_lt h
  refine ⟨hsorted, by decide, ?_, ?_⟩
  · rw [hfloor]
    decide
  · rw [hfloor]
    decide

/-- C3 (amended).  For a sorted sample `ss` of size `s = ss.length ≥ 1`,
bucket count `b ≥ 2`, feasible magnitudes (`b·(s-1) < 2^51`, far beyond any
physical input) and `1 ≤ i ≤ b-1`: the `i`-th boundary (1-indexed) is the
sorted sample's entry at the double-precision index
`int((i/b)·(s-1)) = floatIdx i b (s-1)`, which equals the exact mathematical
floor of the rational `(i/b)·(s-1)` or falls exactly one below it; for
`b = 1` the boundary list is empty. -/
theorem quantile_boundary_formula (ss : List ℤ) (b : Nat)
    (hsort : ss.Sorted (· ≤ ·)) (hb : 2 ≤ b) (hs : 1 ≤ ss.length)
    (hbk : b * (ss.length - 1) < 2 ^ 51) :
    (∀ i, 1 ≤ i → i ≤ b - 1 →
      (bucketBoundaries ss ss.length b).getD (i - 1) 0 =
        ss.getD (floatIdx i b (ss.length - 1)) 0 ∧
      (floatIdx i b (ss.length - 1) : ℤ) ≤
        ⌊(i : ℚ) / (b : ℚ) * ((ss.length : ℚ) - 1)⌋ ∧
      ⌊(i : ℚ) / (b : ℚ) * ((ss.length : ℚ) - 1)⌋ ≤
        (floatIdx i b (ss.length - 1) : ℤ) + 1) ∧
    (∀ s, bucketBoundaries ss s 1 = []) := by
  constructor
  · intro i hi1 hib
    have hibb : i < b := by omega
    have hfloor : ⌊(i : ℚ) / (b : ℚ) * ((ss.length : ℚ) - 1)⌋ =
        ((i * (ss.length - 1) / b : ℕ) : ℤ) := by
      have hcast : (i : ℚ) / (b : ℚ) * ((ss.length : ℚ) - 1) =
          ((i * (ss.length - 1) : ℕ) : ℚ) / ((b : ℕ) : ℚ) := by
        rw [Nat.cast_mul, Nat.cast_sub hs]
        push_cast
        ring
      rw [hcast, Rat.floor_natCast_div_natCast, ← Int.natCast_div]
    refine ⟨?_, ?_, ?_⟩
    · have hlt : i - 1 < (bucketBoundaries ss ss.length b).length := by
        rw [bucketBoundaries_length]
        omega
      rw [getD_eq_getElem hlt, bucketBoundaries_getElem ss ss.length b hlt]
      have h11 : 1 + (i - 1) = i := by omega
      rw [h11]
    · rw [hfloor]
      exact_mod_cast floatIdx_le_exact hi1 hibb hbk
    · rw [hfloor]
      exact_mod_cast exact_le_floatIdx_succ hi1 hibb hbk
  · intro s
    rfl

/-- Witness for C3 (amended) at the spec's concrete scenario 1: sorted
sample `[1,2,3,4,5]` (`s = 5`), `b = 2`, `i = 1`: the boundary is
`sortedSample[floatIdx 1 2 4] = sortedSample[2] = 3`, and here the
double-precision index `2` coincides with the exact floor `⌊(1/2)·4⌋ = 2`;
with `b = 1` there is no boundary. -/
theorem quantile_boundary_formula_witness :
    (bucketBoundaries [1, 2, 3, 4, 5] 5 2).getD 0 0 =
      ([1, 2, 3, 4, 5] : List ℤ).getD (floatIdx 1 2 4) 0 ∧
    (bucketBoundaries [1, 2, 3, 4, 5] 5 2).getD 0 0 = 3 ∧
    floatIdx 1 2 4 = 2 ∧
    (floatIdx 1 2 4 : ℤ) ≤
      ⌊((1 : ℕ) : ℚ) / ((2 : ℕ) : ℚ) * ((((5 : ℕ) : ℚ)) - 1)⌋ ∧
    bucketBoundaries [1, 2, 3, 4, 5] 0 1 = [] :=
  ⟨((quantile_boundary_formula [1, 2, 3, 4, 5] 2 (by decide) (by decide)
      (by decide) (by decide)).1 1 (by decide) (by decide)).1,
    by decide,
    by decide,
    ((quantile_boundary_formula [1, 2, 3, 4, 5] 2 (by decide) (by decide)
      (by decide) (by decide)).1 1 (by decide) (by decide)).2.1,
    (quantile_boundary_formula [1, 2, 3, 4, 5] 2 (by decide) (by decide)
      (by decide) (by decide)).2 0⟩

/-- C4.  The number of buckets the code computes for an input of size `n`
is `max(1, ⌊√n⌋)` with the exact integer square root. -/
theorem numBuckets_eq_floor_sqrt (n : Nat) :
    numBuckets n = max 1 ⌊Real.sqrt n⌋₊ := by
  rw [numBuckets, isqrt_eq_sqrt, Real.nat_floor_real_sqrt_eq_nat_sqrt]

/-- C5.  For any valid sample, the bucket index the code assigns to an
element `x` — `bisect_left(bucket_boundaries, x)` — equals the number of
boundary values strictly below `x`; with a single bucket it is `0`; and an
element equal to the boundary at position `j` is routed to a bucket of
index at most `j` (never the bucket above the boundary). -/
theorem bucket_index_eq_count_lt (sample data : List ℤ) (x : ℤ)
    (hsam : sample.length = sampleSize data.length)
    (hfeas : data.length < 2 ^ 53) :
    bisect_left (pipelineBoundaries sample data) x =
      (pipelineBoundaries sample data).countP (fun y => decide (y < x)) ∧
    (numBuckets data.length = 1 →
      bisect_left (pipelineBoundaries sample data) x = 0) ∧
    (∀ j, (hj : j < (pipelineBoundaries sample data).length) →
      (pipelineBoundaries sample data)[j] = x →
      bisect_left (pipelineBoundaries sample data) x ≤ j) := by
  have hsorted := pipelineBoundaries_sorted sample data hsam hfeas
  have hmain := bisect_left_eq_countP x hsorted
  refine ⟨hmain, ?_, ?_⟩
  · intro h1
    have h2 := bisect_left_le_length (pipelineBoundaries sample data) x
    rw [pipelineBoundaries_length, h1] at h2
    omega
  · intro j hj hx
    rw [hmain]
    have hsplit := (List.take_append_drop j (pipelineBoundaries sample data)).symm
    conv_lhs => rw [hsplit]
    rw [List.countP_append]
    have h2 : ((pipelineBoundaries sample data).drop j).countP
        (fun y => decide (y < x)) = 0 := by
      rw [List.countP_eq_zero]
      intro y hy
      obtain ⟨i, hilen, hig⟩ := List.mem_iff_getElem.1 hy
      rw [List.getElem_drop] at hig
      have hji : j + i < (pipelineBoundaries sample data).length := by
        have := List.length_drop j (pipelineBoundaries sample data) ▸ hilen
        omega
      have hmono : (pipelineBoundaries sample data).getD j 0 ≤
          (pipelineBoundaries sample data).getD (j + i) 0 :=
        sorted_getD_mono hsorted (Nat.le_add_right _ _) hji
      rw [getD_eq_getElem hj, getD_eq_getElem hji, hx, hig] at hmono
      simp only [decide_eq_true_eq]
      omega
    have h3 := List.countP_le_length
      (p := fun y => decide (y < x)) (l := (pipelineBoundaries sample data).take j)
    rw [List.length_take] at h3
    omega

/-- Witness for C5: with input `[5,3,1,4,2]` (boundaries `[3]`) the element
`3` — equal to the boundary — gets index `0 = #{boundaries < 3}`, i.e. the
lower bucket; for the singleton input `[7]` (one bucket) the element `5`
gets index `0`. -/
theorem bucket_index_eq_count_lt_witness :
    bisect_left (pipelineBoundaries [5, 3, 1, 4, 2] [5, 3, 1, 4, 2]) 3 =
      (pipelineBoundaries [5, 3, 1, 4, 2] [5, 3, 1, 4, 2]).countP
        (fun y => decide (y < 3)) ∧
    bisect_left (pipelineBoundaries [5, 3, 1, 4, 2] [5, 3, 1, 4, 2]) 3 = 0 ∧
    bisect_left (pipelineBoundaries [7] [7]) 5 = 0 ∧
    bisect_left (pipelineBoundaries [5, 3, 1, 4, 2] [5, 3, 1, 4, 2]) 3 ≤ 0 :=
  ⟨(bucket_index_eq_count_lt [5, 3, 1, 4, 2] [5, 3, 1, 4, 2] 3 (by decide) (by decide)).1,
    by decide,
    (bucket_index_eq_count_lt [7] [7] 5 (by decide) (by decide)).2.1 (by decide),
    (bucket_index_eq_count_lt [5, 3, 1, 4, 2] [5, 3, 1, 4, 2] 3 (by decide) (by decide)).2.2
      0 (by decide) (by decide)⟩

/-- C6.  For any valid sample, the boundary sequence of one invocation is
non-decreasing and has exactly `num_buckets - 1` entries. -/
theorem boundaries_sorted_and_length (sample data : List ℤ)
    (hsam : sample.length = sampleSize data.length)
    (hfeas : data.length < 2 ^ 53) :
    (pipelineBoundaries sample data).Sorted (· ≤ ·) ∧
    (pipelineBoundaries sample data).length = numBuckets data.length - 1 :=
  ⟨pipelineBoundaries_sorted sample data hsam hfeas,
    pipelineBoundaries_length sample data⟩

/-- Witness for C6 at input `[5,3,1,4,2]`: the boundary sequence is `[3]`,
sorted, of length `1 = num_buckets - 1 = 2 - 1`. -/
theorem boundaries_sorted_and_length_witness :
    (pipelineBoundaries [5, 3, 1, 4, 2] [5, 3, 1, 4, 2]).Sorted (· ≤ ·) ∧
    (pipelineBoundaries [5, 3, 1, 4, 2] [5, 3, 1, 4, 2]).length =
      numBuckets ([5, 3, 1, 4, 2] : List ℤ).length - 1 ∧
    pipelineBoundaries [5, 3, 1, 4, 2] [5, 3, 1, 4, 2] = [3] :=
  ⟨(boundaries_sorted_and_length [5, 3, 1, 4, 2] [5, 3, 1, 4, 2] (by decide) (by decide)).1,
    (boundaries_sorted_and_length [5, 3, 1, 4, 2] [5, 3, 1, 4, 2] (by decide) (by decide)).2,
    by decide⟩

/-- C7.  The empty input returns the empty list immediately (the function
returns before sampling or boundary estimation, whatever the sampler
returns), and a singleton input `[x]` (whose only size-1 sample is `[x]`
itself) is returned unchanged. -/
theorem base_cases_empty_singleton :
    (∀ sample : List ℤ, bucket_sort_quantile_based sample [] = []) ∧
    (∀ x : ℤ, bucket_sort_quantile_based [x] [x] = [x]) := by
  constructor
  · intro sample
    rfl
  · intro x
    rfl

/-- C9.  With the random source modelled as explicit state, two runs on
identical input from identical seeded generator states produce identical
outputs and identical boundary sequences. -/
theorem deterministic_given_seed {σ : Type}
    (randomSample : σ → List ℤ → Nat → List ℤ) (g₁ g₂ : σ) (data : List ℤ)
    (hseed : g₁ = g₂) :
    runWithRng randomSample g₁ data = runWithRng randomSample g₂ data := by
  rw [hseed]

/-- Witness for C9 with a concrete sampler (take the first `k` elements)
in a fixed state on input `[5,3,1,4,2]`; the two runs coincide and produce
the sorted output with boundary sequence `[3]`. -/
theorem deterministic_given_seed_witness :
    runWithRng (fun (_ : Unit) (d : List ℤ) (k : Nat) => d.take k) () [5, 3, 1, 4, 2] =
      runWithRng (fun (_ : Unit) (d : List ℤ) (k : Nat) => d.take k) () [5, 3, 1, 4, 2] ∧
    runWithRng (fun (_ : Unit) (d : List ℤ) (k : Nat) => d.take k) () [5, 3, 1, 4, 2] =
      ([1, 2, 3, 4, 5], [3]) :=
  ⟨deterministic_given_seed (fun (_ : Unit) (d : List ℤ) (k : Nat) => d.take k)
      () () [5, 3, 1, 4, 2] rfl,
    by decide⟩

/-- C10.  For every non-empty input of feasible size (`1 ≤ n < 2^53`; a
CPython list cannot come near the upper bound): the requested sample size
is between `1` and `n` (so `random.sample` cannot fail), every
double-precision quantile index `floatIdx i num_buckets (sample_size - 1)`
is a valid position in the sorted sample (whose length is the sample
size), and every bucket index produced by `bisect_left` on the length
`num_buckets - 1` boundary list is a valid position among the
`num_buckets` buckets. -/
theorem internal_indices_safe (n : Nat) (hn : 1 ≤ n) (hfeas : n < 2 ^ 53) :
    1 ≤ sampleSize n ∧ sampleSize n ≤ n ∧
    (∀ i, 1 ≤ i → i ≤ numBuckets n - 1 →
      floatIdx i (numBuckets n) (sampleSize n - 1) < sampleSize n) ∧
    (∀ (bnd : List ℤ) (x : ℤ), bnd.length = numBuckets n - 1 →
      bisect_left bnd x < numBuckets n) := by
  refine ⟨sampleSize_pos hn, sampleSize_le_self n, ?_, ?_⟩
  · intro i hi1 hib
    have hspos := sampleSize_pos hn
    have hsle := sampleSize_le_self n
    have hidx : floatIdx i (numBuckets n) (sampleSize n - 1) ≤ sampleSize n - 1 :=
      floatIdx_le hi1 (by omega) (numBuckets_le hfeas) (by omega)
    omega
  · intro bnd x hlen
    have h1 := bisect_left_le_length bnd x
    have h2 := numBuckets_pos n
    omega

/-- Witness for C10 at `n = 5` (buckets `2`, sample size `5`,
`floatIdx 1 2 4 = 2 < 5`), with the boundary list `[3]` of length
`1 = num_buckets - 1` and element `4`. -/
theorem internal_indices_safe_witness :
    1 ≤ sampleSize 5 ∧ sampleSize 5 ≤ 5 ∧
    floatIdx 1 (numBuckets 5) (sampleSize 5 - 1) < sampleSize 5 ∧
    bisect_left [3] 4 < numBuckets 5 :=
  ⟨(internal_indices_safe 5 (by decide) (by decide)).1,
    (internal_indices_safe 5 (by decide) (by decide)).2.1,
    (internal_indices_safe 5 (by decide) (by decide)).2.2.1 1 (by decide) (by decide),
    (internal_indices_safe 5 (by decide) (by decide)).2.2.2 [3] 4 (by decide)⟩

end QuantileBucketSort
